import Mathlib

/- Verification development for the lattice gauge theory simulator.

   Embedded sources:
   - `lattice_gauge_theory/utils.py`   (metropolis, increment_array,
     multirange, site_plaq_links, link_plaq_links)
   - `lattice_gauge_theory/groups.py`  (IntGroup constructor checks, derived
     identity / inverse / conjugacy classes, the ZN builder)
   - `lattice_gauge_theory/field.py`   (Field.Prod, Field.link_action,
     Field.energy, Field.initialize)

   The gauge `Lattice` class referenced by `field.py` (link storage and the
   precomputed plaquette tables `p_sites` / `p_links`) is absent from the
   sources (`lattice.py` holds an unrelated cluster-model lattice).  Those
   tables are modelled from the specification, on top of the source
   functions `site_plaq_links` / `link_plaq_links`; the definitions doing so
   are marked `Modelled from the spec:`. -/

namespace LGT

/-- Python/numpy array index semantics: a negative index counts from the end
of an array of length `n` (so index `-1` is the last entry). -/
def pyIdx (n : ℕ) (i : ℤ) : ℕ := if i < 0 then ((n : ℤ) + i).toNat else i.toNat

/-- Embeds `utils.increment_array`: a copy of `arr` in which, for each pair
`(idx, val)` of `incs` in order, the entry at `idx` has been incremented by
`val` (indices use Python semantics, so `-1` addresses the last entry). -/
def increment_array (arr : List ℤ) (incs : List (ℤ × ℤ)) : List ℤ :=
  incs.foldl
    (fun a p => a.set (pyIdx a.length p.1) (a.getD (pyIdx a.length p.1) 0 + p.2)) arr

/-- Embeds `utils.multirange`: all index tuples of a multidimensional shape,
in `itertools.product` order (first axis slowest). -/
def multirange : List ℕ → List (List ℤ)
  | [] => [[]]
  | n :: t => (List.range n).flatMap (fun i => (multirange t).map (fun s => (i : ℤ) :: s))

/-- Embeds `utils.site_plaq_links`: the four links of the plaquette spanned
by directions `d1` and `d2` at `site`, as `site ++ [direction]` tuples.
`none` models the Python `None` that is (implicitly) returned when
`d1 == d2`. -/
def site_plaq_links (site : List ℤ) (d1 d2 : ℤ) : Option (List (List ℤ)) :=
  if d1 < d2 then
    some [site ++ [d1],
          increment_array site [(d1, 1)] ++ [d2],
          increment_array site [(d2, 1)] ++ [d1],
          site ++ [d2]]
  else if d2 < d1 then
    some [site ++ [d2],
          increment_array site [(d2, 1)] ++ [d1],
          increment_array site [(d1, 1)] ++ [d2],
          site ++ [d1]]
  else none

/-- Embeds `utils.link_plaq_links`: the four links of the plaquette that
contains `link` and lies on the `sign` side along the perpendicular
direction `direction`.  A link is a `site ++ [dir]` tuple and `link[-1]` is
its direction.  `none` models both the `ValueError` raised for
`sign ∉ {1, -1}` and the implicit `None` returned when
`direction == link[-1]`. -/
def link_plaq_links (link : List ℤ) (direction : ℤ) (sign : ℤ) :
    Option (List (List ℤ)) :=
  let dl := link.getD (link.length - 1) 0
  if sign = 1 then
    if dl < direction then
      some [link,
            increment_array link [(dl, 1), (-1, direction - dl)],
            increment_array link [(direction, 1)],
            increment_array link [(-1, direction - dl)]]
    else if direction < dl then
      some [increment_array link [(-1, direction - dl)],
            increment_array link [(direction, 1)],
            increment_array link [(dl, 1), (-1, direction - dl)],
            link]
    else none
  else if sign = -1 then
    if dl < direction then
      some [increment_array link [(direction, -1)],
            increment_array link [(direction, -1), (dl, 1), (-1, direction - dl)],
            link,
            increment_array link [(direction, -1), (-1, direction - dl)]]
    else if direction < dl then
      some [increment_array link [(direction, -1), (-1, direction - dl)],
            link,
            increment_array link [(direction, -1), (dl, 1), (-1, direction - dl)],
            increment_array link [(direction, -1)]]
    else none
  else none

/-- Periodic wrap of a site: coordinate `k` is reduced modulo `shape[k]`
(Python `%`, which agrees with `Int.emod` for positive moduli). -/
def wrapSite (shape : List ℕ) (s : List ℤ) : List ℤ :=
  List.zipWith (fun c (L : ℕ) => c % (L : ℤ)) s shape

/-- Periodic wrap of a link tuple `site ++ [dir]`: the site coordinates are
wrapped and the trailing direction entry is kept. -/
def wrapLink (shape : List ℕ) (l : List ℤ) : List ℤ :=
  wrapSite shape (l.take shape.length) ++ l.drop shape.length

/-- Site (or link prefix) lies inside the lattice box. -/
def inRange (shape : List ℕ) (s : List ℤ) : Prop :=
  s.length = shape.length ∧
    ∀ k < shape.length, 0 ≤ s.getD k 0 ∧ s.getD k 0 < (shape.getD k 0 : ℤ)

/-- Modelled from the spec: the gauge `Lattice` class (absent from the
sources) precomputes `plaquettes_by_site_dims`, mapping a site and a
direction pair to the ordered four link identities of that plaquette, with
every coordinate wrapped periodically.  Built here from the source function
`site_plaq_links`. -/
def p_sites (shape : List ℕ) (s : List ℤ) (d1 d2 : ℤ) : List (List ℤ) :=
  ((site_plaq_links s d1 d2).getD []).map (wrapLink shape)

/-- Modelled from the spec: the gauge `Lattice` class (absent from the
sources) precomputes `plaquettes_by_link_dim_sign`, mapping a link, a
perpendicular direction and a sign slot `s ∈ {0, 1}` (slot 0 the `+1` side,
slot 1 the `-1` side) to the ordered four link identities of the
corresponding plaquette, wrapped periodically.  Built here from the source
function `link_plaq_links`. -/
def p_links (shape : List ℕ) (l : List ℤ) (d : ℕ) (s : ℕ) : List (List ℤ) :=
  ((link_plaq_links l (d : ℤ) (if s = 0 then 1 else -1)).getD []).map (wrapLink shape)

/-! Group algebra (`groups.py`).  Group elements are integers `0 .. N-1`;
a group is its `N × N` multiplication table. -/

/-- Table value `table[i][j]` for natural indices. -/
def tval (t : List (List ℕ)) (i j : ℕ) : ℕ := (t.getD i []).getD j 0

/-- Embeds `IntGroup.__init__` line `self.id = np.where(table[0] == 0)[0][0]`:
the first column index of row 0 holding the value 0. -/
def group_id (t : List (List ℕ)) : ℕ := (t.getD 0 []).findIdx (fun e => e == 0)

/-- Embeds `self.inv[i] = np.where(table[i] == self.id)[0][0]`: the first
column index of row `i` holding the identity. -/
def group_inv (t : List (List ℕ)) (i : ℕ) : ℕ :=
  (t.getD i []).findIdx (fun e => e == group_id t)

/-- Embeds `IntGroup.__call__` on two arguments (the left-to-right fold of
the table over the argument list starts from `table[a, b]`). -/
def gmul (t : List (List ℕ)) (a b : ℕ) : ℕ := tval t a b

/-- Embeds the conjugacy-class construction `self.Cl[j] = { self(i, j,
self.inv[i]) for i in range(N) }` (the three-argument product folds as
`(i ∘ j) ∘ inv[i]`). -/
def Cl (t : List (List ℕ)) (j : ℕ) : Finset ℕ :=
  ((List.range t.length).map (fun i => gmul t (gmul t i j) (group_inv t i))).toFinset

/-- Every validation the `IntGroup` constructor performs before it returns,
so `accepted t` says construction succeeds on `t`:
the table is a nonempty square of valid element indices (an out-of-range
entry makes the numpy fancy-indexing check below raise `IndexError`; table
entries are modelled as naturals, a negative numpy entry `-k` acting like
`N-k`), the value check `amax == N-1 or amin == 0` passes, row 0 contains a
0 (else the `self.id` lookup raises), every row contains the identity (else
the `self.inv[i]` lookup raises), and the check
`(table[inv[i], table[i]] == arange(N)).all()` holds for every row. -/
def accepted (t : List (List ℕ)) : Prop :=
  0 < t.length ∧
  (∀ r ∈ t, r.length = t.length) ∧
  (∀ r ∈ t, ∀ e ∈ r, e < t.length) ∧
  ((∃ r ∈ t, (t.length - 1) ∈ r) ∨ (∃ r ∈ t, 0 ∈ r)) ∧
  0 ∈ t.getD 0 [] ∧
  (∀ i ∈ List.range t.length, group_id t ∈ t.getD i []) ∧
  (∀ i ∈ List.range t.length, ∀ k ∈ List.range t.length,
    tval t (group_inv t i) (tval t i k) = k)

instance (t : List (List ℕ)) : Decidable (accepted t) := by
  unfold accepted; infer_instance

/-- Embeds the table built by `groups.ZN`:
`np.mod(np.arange(N) + np.reshape(np.arange(N), (N, 1)), N)`, that is,
`table[i][j] = (i + j) % N`. -/
def ZNtable (N : ℕ) : List (List ℕ) :=
  (List.range N).map (fun i => (List.range N).map (fun j => (i + j) % N))

/-- Embeds the `'delta'` action closure of `groups.ZN`:
`lambda a: float(a != G.id)`.  Field values are stored as integers, so the
argument is compared against the group identity cast to `ℤ`. -/
def delta_action (t : List (List ℕ)) (a : ℤ) : ℚ :=
  if a ≠ (group_id t : ℤ) then 1 else 0

/-! Gauge field (`field.py`).  The link storage is a total map from link
tuples to stored integers (numpy integer array indexed by
`site ++ [direction]`). -/

/-- Numpy indexing of the group table by stored (integer) link values. -/
def zval (t : List (List ℕ)) (i j : ℤ) : ℤ :=
  ((t.getD (pyIdx t.length i) []).getD (pyIdx t.length j) 0 : ℕ)

/-- Numpy indexing of the inverse array `group.inv` by a stored value. -/
def zinv (t : List (List ℕ)) (i : ℤ) : ℤ := (group_inv t (pyIdx t.length i) : ℕ)

/-- Embeds `Field.Prod` (renamed: `Prod` clashes with the core product
type): the plaquette product `group(a, b, inv[c], inv[d])`, folded left to
right. -/
def plaqProd (t : List (List ℕ)) (a b c d : ℤ) : ℤ :=
  zval t (zval t (zval t a b) (zinv t c)) (zinv t d)

/-- Embeds `Field.link_action` with `method=0` as a state-passing function:
given the link storage `links`, the link `l` and the optional override
`val`, it returns the accumulated action together with the storage left
behind by the call (the source temporarily writes `val` into the array and
restores the saved value afterwards).  The sum runs over every direction
`d ≠ l[-1]` and both sign slots, reading the plaquette links from
`p_links`. -/
def link_action (shape : List ℕ) (tbl : List (List ℕ)) (act : ℤ → ℚ)
    (links : List ℤ → ℤ) (l : List ℤ) (val : Option ℤ) : ℚ × (List ℤ → ℤ) :=
  let dl := l.getD (l.length - 1) 0
  let links1 := match val with
    | none => links
    | some v => fun x => if x = l then v else links x
  let a := (((List.range shape.length).filter (fun d : ℕ => ¬((d : ℤ) = dl))).map
    (fun d =>
      ([0, 1].map (fun s =>
        let ls := p_links shape l d s
        act (plaqProd tbl (links1 (ls.getD 0 [])) (links1 (ls.getD 1 []))
          (links1 (ls.getD 2 [])) (links1 (ls.getD 3 []))))).sum)).sum
  let links2 := match val with
    | none => links1
    | some _ => fun x => if x = l then links x else links1 x
  (a, links2)

/-- Embeds `itertools.combinations(range(D), 2)`: the ordered direction
pairs `(d1, d2)` with `d1 < d2 < D`, in enumeration order. -/
def dimPairs (D : ℕ) : List (ℕ × ℕ) :=
  (List.range D).flatMap
    (fun a => (List.range D).filterMap (fun b => if a < b then some (a, b) else none))

/-- Number of lattice sites (`lattice.num_sites`): the product of the shape
extents, realized as the length of the site enumeration. -/
def num_sites (shape : List ℕ) : ℕ := (multirange shape).length

/-- Plaquette products visited by `Field.energy` with `method=2`: for every
site (in `multirange` order) and every direction pair `d1 < d2`, the group
product of the four link values read from the precomputed `p_sites` table. -/
def plaq_products (shape : List ℕ) (tbl : List (List ℕ))
    (links : List ℤ → ℤ) : List ℤ :=
  (multirange shape).flatMap (fun i => (dimPairs shape.length).map
    (fun jp =>
      let le := p_sites shape i (jp.1 : ℤ) (jp.2 : ℤ)
      plaqProd tbl (links (le.getD 0 [])) (links (le.getD 1 []))
        (links (le.getD 2 [])) (links (le.getD 3 []))))

/-- Embeds `Field.energy` with `method=2`: the action applied to every
plaquette product, summed, and divided by
`num_sites * num_dims * (num_dims - 1) / 2`. -/
def energy (shape : List ℕ) (tbl : List (List ℕ)) (act : ℤ → ℚ)
    (links : List ℤ → ℤ) : ℚ :=
  ((plaq_products shape tbl links).map act).sum /
    ((num_sites shape : ℚ) * (shape.length : ℚ) * ((shape.length : ℚ) - 1) / 2)

/-- Initialization policies accepted by `Field.initialize` for the link
storage: the string `'id'`, an integer, the string `'rand'`, the string
`'half'`, and a string `'half<K>'` carrying the integer `K = int(init[4:])`. -/
inductive InitArg where
  | ident : InitArg
  | intval : ℤ → InitArg
  | rand : InitArg
  | half : InitArg
  | halfInt : ℤ → InitArg

/-- Embeds `Field.initialize` (for the link storage).  `N` is the group
size, `e` the group identity and `r` the stream of uniform draws
`np.random.randint(0, N)` supplied to the random policies, one per link.
`none` models an uncaught exception: an integer initializer `v` passes the
guard `isinstance(init, Integral) and init < N` only when `v < N`; when
`v ≥ N` every branch guard fails and the final `init[:4]` slicing of an
integer raises `TypeError`.  The `'half'` policies assign the random draw to
links whose axis-0 coordinate lies below `shape[0] // 2` and the fixed value
to the rest (the slice `links[shape[0]//2:]`). -/
def initLinks (shape : List ℕ) (N : ℕ) (e : ℕ) (r : List ℤ → ℤ) :
    InitArg → Option (List ℤ → ℤ)
  | .ident => some (fun _ => (e : ℤ))
  | .intval v => if v < (N : ℤ) then some (fun _ => v) else none
  | .rand => some (fun x => r x)
  | .half => some (fun x =>
      if ((shape.getD 0 0 / 2 : ℕ) : ℤ) ≤ x.getD 0 0 then (e : ℤ) else r x)
  | .halfInt v => some (fun x =>
      if ((shape.getD 0 0 / 2 : ℕ) : ℤ) ≤ x.getD 0 0 then v else r x)

/-- Embeds `utils.metropolis` as a predicate on the uniform draw `u` (the
source's `np.random.random()`): the update is accepted iff
`delta_S < 0 or exp(-beta * delta_S) > u`. -/
def metropolis (s1 s2 beta u : ℝ) : Prop :=
  s2 - s1 < 0 ∨ Real.exp (-beta * (s2 - s1)) > u

/-! Module-level names visible inside `field.py`.  `utils.py` has no
`__all__`, so its star-import exposes every public module-global, including
the imported modules `np` and `it`; `groups.py` star-imports `utils` and
`field.py` star-imports `groups`. -/

/-- Public module globals of `utils.py` (including the `division` binding
created by `from __future__ import division`, which star-imports
re-export). -/
def utils_public_names : List String :=
  ["division", "np", "it", "metropolis", "unit_vec", "multirange",
   "increment_array", "site_plaq_links", "link_plaq_links"]

/-- Public module globals of `groups.py` (its own definitions plus the
star-import of `utils`). -/
def groups_public_names : List String :=
  utils_public_names ++
    ["ZN", "IntGroup", "TKlein", "Klein", "KDaction", "Qnames", "TQ",
     "Quaternion", "QDaction"]

/-- Module globals of `field.py`: its imports (`numpy as np`, `Lattice`,
`numbers`, and the star-import of `groups`) plus its own top-level
definitions. -/
def field_global_names : List String :=
  ["np", "Lattice", "numbers"] ++ groups_public_names ++
    ["Field", "hysteresis", "phase_sweep", "watch_sweep", "view", "ncolor"]

/-! Helper lemmas about the group constructor. -/

lemma getD_findIdx_beq (row : List ℕ) (a : ℕ) (h : a ∈ row) :
    row.getD (row.findIdx (fun e => e == a)) 0 = a := by
  have hlt : row.findIdx (fun e => e == a) < row.length :=
    List.findIdx_lt_length_of_exists ⟨a, h, by simp⟩
  have hp := @List.findIdx_getElem _ (fun e => e == a) row hlt
  rw [List.getD_eq_getElem?_getD, List.getElem?_eq_getElem hlt]
  simpa using hp

lemma getD_mem_of_lt {α : Type} (l : List α) (d : α) {i : ℕ}
    (hi : i < l.length) : l.getD i d ∈ l := by
  rw [List.getD_eq_getElem?_getD, List.getElem?_eq_getElem hi]
  exact List.getElem_mem hi

lemma getD_eq_default_of_le {α : Type} (l : List α) (d : α) {i : ℕ}
    (hi : l.length ≤ i) : l.getD i d = d := by
  rw [List.getD_eq_getElem?_getD, List.getElem?_eq_none hi]
  rfl

lemma acc_rowlen {t : List (List ℕ)} (h : accepted t) {i : ℕ}
    (hi : i < t.length) : (t.getD i []).length = t.length :=
  h.2.1 _ (getD_mem_of_lt t [] hi)

lemma acc_id_lt {t : List (List ℕ)} (h : accepted t) :
    group_id t < t.length := by
  have h0 : (0 : ℕ) ∈ t.getD 0 [] := h.2.2.2.2.1
  have hlt : (t.getD 0 []).findIdx (fun e => e == 0) < (t.getD 0 []).length :=
    List.findIdx_lt_length_of_exists ⟨0, h0, by simp⟩
  rw [acc_rowlen h h.1] at hlt
  exact hlt

lemma acc_inv_lt {t : List (List ℕ)} (h : accepted t) (i : ℕ) :
    group_inv t i < t.length := by
  by_cases hi : i < t.length
  · have hmem : group_id t ∈ t.getD i [] :=
      h.2.2.2.2.2.1 i (List.mem_range.mpr hi)
    have hlt : (t.getD i []).findIdx (fun e => e == group_id t) <
        (t.getD i []).length :=
      List.findIdx_lt_length_of_exists ⟨group_id t, hmem, by simp⟩
    rw [acc_rowlen h hi] at hlt
    exact hlt
  · have hrow : t.getD i [] = [] := getD_eq_default_of_le t [] (by omega)
    rw [group_inv, hrow]
    simpa using h.1

lemma acc_tval_lt {t : List (List ℕ)} (h : accepted t) (i j : ℕ) :
    tval t i j < t.length := by
  by_cases hi : i < t.length
  · by_cases hj : j < (t.getD i []).length
    · exact h.2.2.1 _ (getD_mem_of_lt t [] hi) _ (getD_mem_of_lt _ 0 hj)
    · unfold tval
      rw [getD_eq_default_of_le _ 0 (by omega)]
      exact h.1
  · unfold tval
    rw [show (t.getD i []) = [] from getD_eq_default_of_le t [] (by omega)]
    exact h.1

lemma acc_mul_inv {t : List (List ℕ)} (h : accepted t) {x : ℕ}
    (hx : x < t.length) : tval t x (group_inv t x) = group_id t := by
  have hmem : group_id t ∈ t.getD x [] :=
    h.2.2.2.2.2.1 x (List.mem_range.mpr hx)
  simpa [tval, group_inv] using getD_findIdx_beq (t.getD x []) (group_id t) hmem

lemma acc_left_cancel {t : List (List ℕ)} (h : accepted t) {x k : ℕ}
    (hx : x < t.length) (hk : k < t.length) :
    tval t (group_inv t x) (tval t x k) = k :=
  h.2.2.2.2.2.2 x (List.mem_range.mpr hx) k (List.mem_range.mpr hk)

/-- C4 (counterexample): the table `[[0,1],[0,1]]` passes every check the
`IntGroup` constructor performs, yet `multiply(inverse(1), 1) = 1` differs
from the identity `0`, so the claim as stated fails for an accepted table. -/
theorem group_inverse_claim_cex :
    accepted [[0, 1], [0, 1]] ∧ 1 < ([[0, 1], [0, 1]] : List (List ℕ)).length ∧
    gmul [[0, 1], [0, 1]] (group_inv [[0, 1], [0, 1]] 1) 1 ≠
      group_id [[0, 1], [0, 1]] := by
  decide

/-- C4 (amended): for every table the constructor accepts,
`multiply(x, inverse(x))` is the identity for every element `x`,
unconditionally; and if the table additionally sends `x · identity` to `x`
for every `x` (true of every genuine group table), then
`multiply(inverse(x), x)` is the identity as well. -/
theorem group_inverse_of_accepted (t : List (List ℕ)) (h : accepted t) :
    (∀ x < t.length, gmul t x (group_inv t x) = group_id t) ∧
    ((∀ x < t.length, tval t x (group_id t) = x) →
      ∀ x < t.length, gmul t (group_inv t x) x = group_id t) := by
  constructor
  · intro x hx
    exact acc_mul_inv h hx
  · intro hid x hx
    have h7 := acc_left_cancel h hx (acc_id_lt h)
    rw [hid x hx] at h7
    exact h7

/-- C4 (witness): the amended theorem applied concretely: the first
conjunct at the accepted non-group table `[[0,1],[0,1]]` (where the
right-identity condition fails), and both conjuncts at the accepted table
of `Z_2`, at the element `1`. -/
theorem group_inverse_of_accepted_witness :
    (gmul [[0, 1], [0, 1]] 1 (group_inv [[0, 1], [0, 1]] 1) =
      group_id [[0, 1], [0, 1]]) ∧
    (gmul (ZNtable 2) 1 (group_inv (ZNtable 2) 1) = group_id (ZNtable 2)) ∧
    (gmul (ZNtable 2) (group_inv (ZNtable 2) 1) 1 = group_id (ZNtable 2)) :=
  ⟨(group_inverse_of_accepted [[0, 1], [0, 1]] (by decide)).1 1 (by decide),
   (group_inverse_of_accepted (ZNtable 2) (by decide)).1 1 (by decide),
   (group_inverse_of_accepted (ZNtable 2) (by decide)).2 (by decide) 1
     (by decide)⟩

/-- C10: for every `N ≥ 1` the table built by `ZN` is the cyclic group of
order `N`: `table[i][j] = (i + j) % N`, the derived identity is `0`, and the
derived inverse of `i` is `(N - i) % N`. -/
theorem ZN_cyclic_group (N : ℕ) (hN : 1 ≤ N) :
    (∀ i < N, ∀ j < N, tval (ZNtable N) i j = (i + j) % N) ∧
    group_id (ZNtable N) = 0 ∧
    (∀ i < N, group_inv (ZNtable N) i = (N - i) % N) := by
  have hrow : ∀ i < N, (ZNtable N).getD i [] =
      (List.range N).map (fun j => (i + j) % N) := by
    intro i hi
    rw [ZNtable, List.getD_eq_getElem?_getD, List.getElem?_map,
      List.getElem?_range hi]
    rfl
  have htv : ∀ i < N, ∀ j < N, tval (ZNtable N) i j = (i + j) % N := by
    intro i hi j hj
    rw [tval, hrow i hi, List.getD_eq_getElem?_getD, List.getElem?_map,
      List.getElem?_range hj]
    rfl
  have hid : group_id (ZNtable N) = 0 := by
    rw [group_id, hrow 0 hN]
    have h0 : (0 : ℕ) <
        ((List.range N).map (fun j => (0 + j) % N)).length := by
      simpa using hN
    rw [List.findIdx_eq h0]
    refine ⟨?_, by omega⟩
    simp
  refine ⟨htv, hid, ?_⟩
  intro i hi
  rw [group_inv, hid, hrow i hi]
  have hn0 : (N - i) % N <
      ((List.range N).map (fun j => (i + j) % N)).length := by
    simpa using Nat.mod_lt (N - i) (show 0 < N by omega)
  rw [List.findIdx_eq hn0]
  constructor
  · simp only [List.getElem_map, List.getElem_range]
    rcases Nat.eq_zero_or_pos i with h0 | hpos
    · subst h0; simp
    · have h1 : (N - i) % N = N - i := Nat.mod_eq_of_lt (by omega)
      rw [h1, show i + (N - i) = N from by omega]
      simp
  · intro j hj
    simp only [List.getElem_map, List.getElem_range]
    rcases Nat.eq_zero_or_pos i with h0 | hpos
    · subst h0
      simp at hj
    · have h1 : (N - i) % N = N - i := Nat.mod_eq_of_lt (by omega)
      rw [h1] at hj
      rw [Nat.mod_eq_of_lt (by omega)]
      simp
      omega

/-- C10 (witness): the cyclic-group facts evaluated for `Z_3`. -/
theorem ZN_cyclic_group_witness :
    tval (ZNtable 3) 1 2 = (1 + 2) % 3 ∧ group_id (ZNtable 3) = 0 ∧
    group_inv (ZNtable 3) 2 = (3 - 2) % 3 :=
  ⟨(ZN_cyclic_group 3 (by decide)).1 1 (by decide) 2 (by decide),
   (ZN_cyclic_group 3 (by decide)).2.1,
   (ZN_cyclic_group 3 (by decide)).2.2 2 (by decide)⟩

/-- C1: the Metropolis rule accepts for every uniform draw `u ∈ [0,1)`
whenever the action did not increase (`s2 - s1 < 0` or `s2 = s1`, for any
`beta ≥ 0`), and accepts everything when `beta = 0`. -/
theorem metropolis_zero_delta_accepts (s1 s2 beta u : ℝ)
    (_hu0 : 0 ≤ u) (hu1 : u < 1) :
    ((0 ≤ beta ∧ (s2 - s1 < 0 ∨ s2 = s1)) → metropolis s1 s2 beta u) ∧
    (beta = 0 → metropolis s1 s2 beta u) := by
  constructor
  · rintro ⟨hb, hlt | heq⟩
    · exact Or.inl hlt
    · right
      have hz : s2 - s1 = 0 := by rw [heq]; ring
      rw [hz, mul_zero, Real.exp_zero]
      exact hu1
  · intro hb
    right
    rw [hb]
    have hz : -(0 : ℝ) * (s2 - s1) = 0 := by ring
    rw [hz, Real.exp_zero]
    exact hu1

/-- C1 (witness): an equal-action proposal with `beta = 1` and draw `1/2`
is accepted. -/
theorem metropolis_zero_delta_accepts_witness : metropolis 0 0 1 (1 / 2) :=
  (metropolis_zero_delta_accepts 0 0 1 (1 / 2) one_half_pos.le
    one_half_lt_one).1 ⟨zero_le_one, Or.inr rfl⟩

/-- C5: evaluating `link_action` with a hypothetical override value leaves
every stored link value unchanged: the storage returned by the call equals
the storage passed in, for every shape, group table, action, link and
override. -/
theorem link_action_override_pure (shape : List ℕ) (tbl : List (List ℕ))
    (act : ℤ → ℚ) (links : List ℤ → ℤ) (l : List ℤ) (v : ℤ) :
    (link_action shape tbl act links l (some v)).2 = links := by
  funext x
  show (if x = l then links x else if x = l then v else links x) = links x
  by_cases hx : x = l <;> simp [hx]

/-- C9: `Field.rand_update` draws its proposal with the bare name
`randint`, but no module global of `field.py` (its imports, the star-import
chain through `groups.py` and `utils.py`, and its own definitions) binds
that name — and it is not a Python builtin — so the first proposal draw
raises `NameError`. -/
theorem randint_not_in_scope : "randint" ∉ field_global_names := by decide

/-- C2: on the 2×2×2 cubic lattice with group `Z_2`, the delta action and
every link initialized to the group identity, the total-energy observable
is exactly `0`. -/
theorem total_energy_identity_config :
    energy [2, 2, 2] (ZNtable 2) (delta_action (ZNtable 2))
      (fun _ => (group_id (ZNtable 2) : ℤ)) = 0 := by
  have hp : plaq_products [2, 2, 2] (ZNtable 2)
      (fun _ => (group_id (ZNtable 2) : ℤ)) = List.replicate 24 0 := by decide
  have hid0 : group_id (ZNtable 2) = 0 := by decide
  have ha : delta_action (ZNtable 2) 0 = 0 := by
    simp [delta_action, hid0]
  rw [energy, hp, List.map_replicate, ha]
  simp

/-! Helper lemmas for plaquette-tuple distinctness. -/

lemma append_singleton_ne_last {a b : List ℤ} {x y : ℤ} (h : x ≠ y) :
    a ++ [x] ≠ b ++ [y] := by
  intro he
  have hlen : a.length = b.length := by
    have := congrArg List.length he
    simpa using this
  have := (List.append_inj he hlen).2
  simp at this
  exact h this

lemma append_singleton_ne_pre {a b : List ℤ} {x y : ℤ} (h : a ≠ b) :
    a ++ [x] ≠ b ++ [y] := by
  intro he
  have hlen : a.length = b.length := by
    have := congrArg List.length he
    simpa using this
  exact h (List.append_inj he hlen).1

lemma set_incr_ne (s : List ℤ) (n : ℕ) (hn : n < s.length) :
    s.set n (s.getD n 0 + 1) ≠ s := by
  intro he
  have h3 := congrArg (fun l => l.getD n 0) he
  simp only [] at h3
  have h4 : (s.set n (s.getD n 0 + 1)).getD n 0 = s.getD n 0 + 1 := by
    rw [List.getD_eq_getElem?_getD,
      List.getElem?_eq_getElem (by simpa using hn)]
    simp [List.getElem_set]
  omega

lemma increment_one (s : List ℤ) (d : ℤ) (hd : 0 ≤ d) :
    increment_array s [(d, 1)] = s.set d.toNat (s.getD d.toNat 0 + 1) := by
  simp [increment_array, pyIdx, not_lt.mpr hd]

lemma canon_card (s : List ℤ) (x y : ℤ) (hxy : x ≠ y) (hx0 : 0 ≤ x)
    (hy0 : 0 ≤ y) (hbx : x.toNat < s.length) (hby : y.toNat < s.length) :
    ([s ++ [x], increment_array s [(x, 1)] ++ [y],
      increment_array s [(y, 1)] ++ [x], s ++ [y]] :
        List (List ℤ)).toFinset.card = 4 := by
  have hSx : increment_array s [(x, 1)] ≠ s := by
    rw [increment_one s x hx0]
    exact set_incr_ne s x.toNat hbx
  have hSy : increment_array s [(y, 1)] ≠ s := by
    rw [increment_one s y hy0]
    exact set_incr_ne s y.toNat hby
  have hnd : ([s ++ [x], increment_array s [(x, 1)] ++ [y],
      increment_array s [(y, 1)] ++ [x], s ++ [y]] :
        List (List ℤ)).Nodup := by
    refine List.Nodup.cons ?_ (List.Nodup.cons ?_ (List.Nodup.cons ?_
      (List.nodup_singleton _)))
    · intro hmem
      rcases List.mem_cons.mp hmem with he | hmem
      · exact append_singleton_ne_last hxy he
      rcases List.mem_cons.mp hmem with he | hmem
      · exact append_singleton_ne_pre (Ne.symm hSy) he
      rcases List.mem_cons.mp hmem with he | hmem
      · exact append_singleton_ne_last hxy he
      · simp at hmem
    · intro hmem
      rcases List.mem_cons.mp hmem with he | hmem
      · exact append_singleton_ne_last (Ne.symm hxy) he
      rcases List.mem_cons.mp hmem with he | hmem
      · exact append_singleton_ne_pre hSx he
      · simp at hmem
    · intro hmem
      rcases List.mem_cons.mp hmem with he | hmem
      · exact append_singleton_ne_last hxy he
      · simp at hmem
  rw [List.toFinset_card_of_nodup hnd]
  rfl

/-- C6: for distinct directions, `site_plaq_links` called with the
arguments swapped returns the identical result (even as an ordered tuple,
because the smaller direction is taken first in both branches), and for
in-range directions the result is a set of four distinct links. -/
theorem site_plaq_links_swap (s : List ℤ) (d1 d2 : ℤ) (hne : d1 ≠ d2)
    (h1 : 0 ≤ d1) (h2 : 0 ≤ d2) (hb1 : d1.toNat < s.length)
    (hb2 : d2.toNat < s.length) :
    site_plaq_links s d1 d2 = site_plaq_links s d2 d1 ∧
    ((site_plaq_links s d1 d2).getD []).toFinset.card = 4 := by
  rcases lt_or_gt_of_ne hne with hlt | hgt
  · constructor
    · rw [site_plaq_links, site_plaq_links, if_pos hlt,
        if_neg (not_lt.mpr hlt.le), if_pos hlt]
    · rw [site_plaq_links, if_pos hlt]
      exact canon_card s d1 d2 hne h1 h2 hb1 hb2
  · constructor
    · rw [site_plaq_links, site_plaq_links, if_neg (not_lt.mpr hgt.le),
        if_pos hgt, if_pos hgt]
    · rw [site_plaq_links, if_neg (not_lt.mpr hgt.le), if_pos hgt]
      exact canon_card s d2 d1 (Ne.symm hne) h2 h1 hb2 hb1

/-- C6 (witness): the swap identity and the four-element cardinality
evaluated at the origin of a 2×2 lattice with directions 0 and 1. -/
theorem site_plaq_links_swap_witness :
    site_plaq_links [0, 0] 0 1 = site_plaq_links [0, 0] 1 0 ∧
    ((site_plaq_links [0, 0] 0 1).getD []).toFinset.card = 4 :=
  site_plaq_links_swap [0, 0] 0 1 (by decide) (by decide) (by decide)
    (by decide) (by decide)

/-- C8 (counterexample): initializing with the integer `-1` (outside
`0..N-1`) does not fail: the constructor stores `-1` on every link, in
violation of the range invariant. -/
theorem init_negative_accepted_cex :
    (initLinks [2, 2] 2 0 (fun _ => 0) (InitArg.intval (-1))).map
      (fun f => f [0, 0, 0]) = some (-1) ∧ (-1 : ℤ) < 0 := by
  exact ⟨rfl, by decide⟩

/-- C8 (amended): an integer initializer `≥ N` fails immediately (the
integer reaches the string-slicing branch, a `TypeError`); a negative
integer is accepted and stored as-is; and after every successful
initialization under `'id'`, `'rand'`, `'half'`, an integer in `0..N-1`,
or `'half<K>'` with `K` in `0..N-1`, every stored link value `v` satisfies
`0 ≤ v < N`. -/
theorem init_range_checked (shape : List ℕ) (N : ℕ) (e : ℕ) (r : List ℤ → ℤ)
    (he : e < N) (hr : ∀ x, 0 ≤ r x ∧ r x < (N : ℤ)) :
    (∀ v : ℤ, (N : ℤ) ≤ v → initLinks shape N e r (.intval v) = none) ∧
    (∀ f, initLinks shape N e r .ident = some f →
      ∀ x, 0 ≤ f x ∧ f x < (N : ℤ)) ∧
    (∀ f, initLinks shape N e r .rand = some f →
      ∀ x, 0 ≤ f x ∧ f x < (N : ℤ)) ∧
    (∀ f, initLinks shape N e r .half = some f →
      ∀ x, 0 ≤ f x ∧ f x < (N : ℤ)) ∧
    (∀ v : ℤ, 0 ≤ v → v < (N : ℤ) → ∀ f,
      initLinks shape N e r (.intval v) = some f →
      ∀ x, 0 ≤ f x ∧ f x < (N : ℤ)) ∧
    (∀ v : ℤ, 0 ≤ v → v < (N : ℤ) → ∀ f,
      initLinks shape N e r (.halfInt v) = some f →
      ∀ x, 0 ≤ f x ∧ f x < (N : ℤ)) := by
  refine ⟨?_, ?_, ?_, ?_, ?_, ?_⟩
  · intro v hv
    rw [initLinks, if_neg (by omega)]
  · intro f hf x
    rw [initLinks] at hf
    obtain rfl : (fun _ : List ℤ => (e : ℤ)) = f := Option.some_inj.mp hf
    refine ⟨?_, ?_⟩
    · show (0 : ℤ) ≤ (e : ℤ)
      positivity
    · show (e : ℤ) < (N : ℤ)
      exact_mod_cast he
  · intro f hf x
    rw [initLinks] at hf
    obtain rfl : (fun x : List ℤ => r x) = f := Option.some_inj.mp hf
    exact hr x
  · intro f hf x
    rw [initLinks] at hf
    obtain rfl := Option.some_inj.mp hf
    show 0 ≤ (if ((shape.getD 0 0 / 2 : ℕ) : ℤ) ≤ x.getD 0 0
        then (e : ℤ) else r x) ∧
      (if ((shape.getD 0 0 / 2 : ℕ) : ℤ) ≤ x.getD 0 0
        then (e : ℤ) else r x) < (N : ℤ)
    by_cases hc : ((shape.getD 0 0 / 2 : ℕ) : ℤ) ≤ x.getD 0 0
    · rw [if_pos hc]
      exact ⟨by positivity, by exact_mod_cast he⟩
    · rw [if_neg hc]
      exact hr x
  · intro v hv0 hvN f hf x
    rw [initLinks, if_pos (by omega)] at hf
    obtain rfl : (fun _ : List ℤ => v) = f := Option.some_inj.mp hf
    exact ⟨hv0, hvN⟩
  · intro v hv0 hvN f hf x
    rw [initLinks] at hf
    obtain rfl := Option.some_inj.mp hf
    show 0 ≤ (if ((shape.getD 0 0 / 2 : ℕ) : ℤ) ≤ x.getD 0 0
        then v else r x) ∧
      (if ((shape.getD 0 0 / 2 : ℕ) : ℤ) ≤ x.getD 0 0
        then v else r x) < (N : ℤ)
    by_cases hc : ((shape.getD 0 0 / 2 : ℕ) : ℤ) ≤ x.getD 0 0
    · rw [if_pos hc]
      exact ⟨hv0, hvN⟩
    · rw [if_neg hc]
      exact hr x

/-- C8 (witness): the amended theorem evaluated concretely: the integer
initializer `5` on a group of size 2 fails. -/
theorem init_range_checked_witness :
    initLinks [2, 2] 2 0 (fun _ => 1) (InitArg.intval 5) = none :=
  (init_range_checked [2, 2] 2 0 (fun _ => 1) (by decide)
    (fun _ => ⟨by exact zero_le_one, by exact one_lt_two⟩)).1 5 (by decide)

/-- C7 (counterexample): for the accepted table `[[0,1],[0,1]]` both
conjugacy classes collapse to `{0}`, so their union misses the element `1`
and the classes do not partition the element set. -/
theorem conjugacy_partition_cex :
    accepted [[0, 1], [0, 1]] ∧
    (Finset.range 2).biUnion (Cl [[0, 1], [0, 1]]) ≠ Finset.range 2 := by
  decide

/-! Helper lemmas for conjugacy classes of an accepted table that is a
genuine group (two-sided identity and associativity). -/

lemma acc_inv_mul {t : List (List ℕ)} (h : accepted t)
    (hid : ∀ x < t.length, tval t x (group_id t) = x) {x : ℕ}
    (hx : x < t.length) : tval t (group_inv t x) x = group_id t := by
  have h7 := acc_left_cancel h hx (acc_id_lt h)
  rw [hid x hx] at h7
  exact h7

lemma acc_row_inj {t : List (List ℕ)} (h : accepted t) {x a b : ℕ}
    (hx : x < t.length) (ha : a < t.length) (hb : b < t.length)
    (heq : tval t x a = tval t x b) : a = b := by
  have h1 := acc_left_cancel h hx ha
  have h2 := acc_left_cancel h hx hb
  rw [heq] at h1
  exact h1.symm.trans h2

lemma acc_inv_unique {t : List (List ℕ)} (h : accepted t) {x j : ℕ}
    (hx : x < t.length) (hj : j < t.length)
    (hje : tval t x j = group_id t) : j = group_inv t x :=
  acc_row_inj h hx hj (acc_inv_lt h x)
    (by rw [hje, acc_mul_inv h hx])

lemma acc_inv_id {t : List (List ℕ)} (h : accepted t)
    (hid : ∀ x < t.length, tval t x (group_id t) = x) :
    group_inv t (group_id t) = group_id t :=
  (acc_inv_unique h (acc_id_lt h) (acc_id_lt h)
    (hid _ (acc_id_lt h))).symm

lemma acc_inv_inv {t : List (List ℕ)} (h : accepted t)
    (hid : ∀ x < t.length, tval t x (group_id t) = x) {g : ℕ}
    (hg : g < t.length) : group_inv t (group_inv t g) = g :=
  (acc_inv_unique h (acc_inv_lt h g) hg (acc_inv_mul h hid hg)).symm

lemma acc_inv_mul_rev {t : List (List ℕ)} (h : accepted t)
    (hid2 : ∀ x < t.length,
      tval t x (group_id t) = x ∧ tval t (group_id t) x = x)
    (hassoc : ∀ a < t.length, ∀ b < t.length, ∀ c < t.length,
      tval t (tval t a b) c = tval t a (tval t b c))
    {a b : ℕ} (ha : a < t.length) (hb : b < t.length) :
    group_inv t (tval t a b) =
      tval t (group_inv t b) (group_inv t a) := by
  refine (acc_inv_unique h (acc_tval_lt h a b) (acc_tval_lt h _ _) ?_).symm
  rw [← hassoc _ (acc_tval_lt h a b) _ (acc_inv_lt h b) _ (acc_inv_lt h a)]
  rw [hassoc _ ha _ hb _ (acc_inv_lt h b)]
  rw [acc_mul_inv h hb]
  rw [(hid2 _ ha).1]
  rw [acc_mul_inv h ha]

lemma mem_Cl_iff {t : List (List ℕ)} {x y : ℕ} :
    y ∈ Cl t x ↔
      ∃ g < t.length, tval t (tval t g x) (group_inv t g) = y := by
  simp [Cl, gmul]

lemma mem_Cl_lt {t : List (List ℕ)} (h : accepted t) {x y : ℕ}
    (hy : y ∈ Cl t x) : y < t.length := by
  obtain ⟨g, hg, he⟩ := mem_Cl_iff.mp hy
  rw [← he]
  exact acc_tval_lt h _ _

lemma Cl_self_mem {t : List (List ℕ)} (h : accepted t)
    (hid2 : ∀ x < t.length,
      tval t x (group_id t) = x ∧ tval t (group_id t) x = x)
    {x : ℕ} (hx : x < t.length) : x ∈ Cl t x := by
  refine mem_Cl_iff.mpr ⟨group_id t, acc_id_lt h, ?_⟩
  rw [(hid2 x hx).2, acc_inv_id h (fun z hz => (hid2 z hz).1),
    (hid2 x hx).1]

lemma Cl_symm {t : List (List ℕ)} (h : accepted t)
    (hid2 : ∀ x < t.length,
      tval t x (group_id t) = x ∧ tval t (group_id t) x = x)
    (hassoc : ∀ a < t.length, ∀ b < t.length, ∀ c < t.length,
      tval t (tval t a b) c = tval t a (tval t b c))
    {x y : ℕ} (hx : x < t.length) (hy : y ∈ Cl t x) : x ∈ Cl t y := by
  have hid : ∀ z < t.length, tval t z (group_id t) = z :=
    fun z hz => (hid2 z hz).1
  obtain ⟨g, hg, hgx⟩ := mem_Cl_iff.mp hy
  refine mem_Cl_iff.mpr ⟨group_inv t g, acc_inv_lt h g, ?_⟩
  rw [acc_inv_inv h hid hg, ← hgx]
  rw [hassoc _ hg _ hx _ (acc_inv_lt h g)]
  rw [← hassoc _ (acc_inv_lt h g) _ hg _ (acc_tval_lt h _ _)]
  rw [acc_inv_mul h hid hg, (hid2 _ (acc_tval_lt h x (group_inv t g))).2]
  rw [hassoc _ hx _ (acc_inv_lt h g) _ hg]
  rw [acc_inv_mul h hid hg, (hid2 _ hx).1]

lemma Cl_trans {t : List (List ℕ)} (h : accepted t)
    (hid2 : ∀ x < t.length,
      tval t x (group_id t) = x ∧ tval t (group_id t) x = x)
    (hassoc : ∀ a < t.length, ∀ b < t.length, ∀ c < t.length,
      tval t (tval t a b) c = tval t a (tval t b c))
    {x y z : ℕ} (hx : x < t.length) (hzy : z ∈ Cl t y)
    (hyx : y ∈ Cl t x) : z ∈ Cl t x := by
  obtain ⟨k, hk, hky⟩ := mem_Cl_iff.mp hzy
  obtain ⟨g, hg, hgx⟩ := mem_Cl_iff.mp hyx
  have hyN : y < t.length := mem_Cl_lt h hyx
  refine mem_Cl_iff.mpr ⟨tval t k g, acc_tval_lt h k g, ?_⟩
  rw [acc_inv_mul_rev h hid2 hassoc hk hg]
  rw [hassoc _ hk _ hg _ hx]
  rw [hassoc _ hk _ (acc_tval_lt h g x) _ (acc_tval_lt h _ _)]
  rw [← hassoc _ (acc_tval_lt h g x) _ (acc_inv_lt h g) _ (acc_inv_lt h k)]
  rw [hgx]
  rw [← hassoc _ hk _ hyN _ (acc_inv_lt h k)]
  rw [hky]

lemma Cl_eq_of_mem {t : List (List ℕ)} (h : accepted t)
    (hid2 : ∀ x < t.length,
      tval t x (group_id t) = x ∧ tval t (group_id t) x = x)
    (hassoc : ∀ a < t.length, ∀ b < t.length, ∀ c < t.length,
      tval t (tval t a b) c = tval t a (tval t b c))
    {x y : ℕ} (hx : x < t.length) (hyx : y ∈ Cl t x) :
    Cl t x = Cl t y := by
  ext w
  constructor
  · intro hwx
    exact Cl_trans h hid2 hassoc (mem_Cl_lt h hyx) hwx
      (Cl_symm h hid2 hassoc hx hyx)
  · intro hwy
    exact Cl_trans h hid2 hassoc hx hwy hyx

/-- C7 (amended): for every accepted table that is moreover a genuine group
(two-sided identity and associativity), the conjugacy classes partition the
element set: their union is all of `0..N-1`, distinct classes are
disjoint, and the class of `x` is exactly `{ g·x·g⁻¹ : g in elements }`. -/
theorem conjugacy_partition (t : List (List ℕ)) (h : accepted t)
    (hid2 : ∀ x < t.length,
      tval t x (group_id t) = x ∧ tval t (group_id t) x = x)
    (hassoc : ∀ a < t.length, ∀ b < t.length, ∀ c < t.length,
      tval t (tval t a b) c = tval t a (tval t b c)) :
    (Finset.range t.length).biUnion (Cl t) = Finset.range t.length ∧
    (∀ x < t.length, ∀ y < t.length,
      Cl t x ≠ Cl t y → Disjoint (Cl t x) (Cl t y)) ∧
    (∀ x, Cl t x = ((List.range t.length).map
      (fun g => gmul t (gmul t g x) (group_inv t g))).toFinset) := by
  refine ⟨?_, ?_, fun x => rfl⟩
  · ext a
    simp only [Finset.mem_biUnion, Finset.mem_range]
    constructor
    · rintro ⟨x, hx, hax⟩
      exact mem_Cl_lt h hax
    · intro ha
      exact ⟨a, ha, Cl_self_mem h hid2 ha⟩
  · intro x hx y hy hne
    rw [Finset.disjoint_left]
    intro a hax hay
    exact hne ((Cl_eq_of_mem h hid2 hassoc hx hax).trans
      (Cl_eq_of_mem h hid2 hassoc hy hay).symm)

/-- C7 (witness): the partition facts applied to the accepted group table
of `Z_3`. -/
theorem conjugacy_partition_witness :
    (Finset.range (ZNtable 3).length).biUnion (Cl (ZNtable 3)) =
      Finset.range (ZNtable 3).length :=
  (conjugacy_partition (ZNtable 3) (by decide) (by decide) (by decide)).1

/-! Development for C3: the plaquettes visited by `link_action` versus a
direct enumeration of all plaquettes containing a given link. -/

/-- The (wrapped) plaquette link-tuples read by `Field.link_action` with
`method=0`: for each direction `d ≠ l[-1]` (in `range` order) the two sign
slots of the `p_links` table. -/
def linkActionPlaqs (shape : List ℕ) (l : List ℤ) : List (List (List ℤ)) :=
  ((List.range shape.length).filter
    (fun d : ℕ => ¬((d : ℤ) = l.getD (l.length - 1) 0))).flatMap
    (fun d => [p_links shape l d 0, p_links shape l d 1])

/-- Direct enumeration: every plaquette of the lattice — base site from
`multirange`, direction pair `d1 < d2` — whose (wrapped) four links contain
the link `l`, listed as its `p_sites` tuple. -/
def directPlaqs (shape : List ℕ) (l : List ℤ) : List (List (List ℤ)) :=
  (multirange shape).flatMap (fun b => (dimPairs shape.length).filterMap
    (fun pr =>
      if l ∈ p_sites shape b (pr.1 : ℤ) (pr.2 : ℤ)
      then some (p_sites shape b (pr.1 : ℤ) (pr.2 : ℤ)) else none))

/-- Adds `v` to coordinate `d` of a site tuple (the effect of one
`increment_array` entry at a non-negative index). -/
def bump (s : List ℤ) (d : ℕ) (v : ℤ) : List ℤ := s.set d (s.getD d 0 + v)

/-- The canonical ordered 4-tuple of links of the plaquette at base `b`
spanned by `d1 < d2`, exactly as produced by `site_plaq_links`. -/
def canon (b : List ℤ) (d1 d2 : ℕ) : List (List ℤ) :=
  [b ++ [(d1 : ℤ)], bump b d1 1 ++ [(d2 : ℤ)],
   bump b d2 1 ++ [(d1 : ℤ)], b ++ [(d2 : ℤ)]]

lemma bump_length (s : List ℤ) (d : ℕ) (v : ℤ) :
    (bump s d v).length = s.length := by
  simp [bump]

lemma pyIdx_natCast (n d : ℕ) : pyIdx n (d : ℤ) = d := by
  simp [pyIdx]

lemma pyIdx_neg_one (n : ℕ) : pyIdx (n + 1) (-1) = n := by
  simp only [pyIdx, if_pos (by omega : (-1 : ℤ) < 0)]
  omega

lemma increment_array_cons (arr : List ℤ) (p : ℤ × ℤ)
    (rest : List (ℤ × ℤ)) :
    increment_array arr (p :: rest) =
      increment_array (increment_array arr [p]) rest := rfl

lemma increment_array_nat (b : List ℤ) (d : ℕ) (v : ℤ) :
    increment_array b [((d : ℤ), v)] = bump b d v := by
  show b.set (pyIdx b.length (d : ℤ))
      (b.getD (pyIdx b.length (d : ℤ)) 0 + v) = bump b d v
  rw [pyIdx_natCast]
  rfl

lemma set_append_left (s : List ℤ) (x : ℤ) (n : ℕ) (v : ℤ)
    (hn : n < s.length) : (s ++ [x]).set n v = s.set n v ++ [x] := by
  rw [List.set_append, if_pos hn]

lemma getD_append_lt (s : List ℤ) (x : ℤ) (n : ℕ) (hn : n < s.length) :
    (s ++ [x]).getD n 0 = s.getD n 0 := List.getD_append _ _ _ _ hn

lemma link_last (s : List ℤ) (x : ℤ) :
    (s ++ [x]).getD ((s ++ [x]).length - 1) 0 = x := by
  have hlen : (s ++ [x]).length = s.length + 1 := by simp
  rw [hlen, Nat.add_sub_cancel,
    List.getD_append_right _ _ _ _ le_rfl]
  simp

lemma increment_array_last (s : List ℤ) (x v : ℤ) :
    increment_array (s ++ [x]) [(-1, v)] = s ++ [x + v] := by
  show (s ++ [x]).set (pyIdx (s ++ [x]).length (-1))
      ((s ++ [x]).getD (pyIdx (s ++ [x]).length (-1)) 0 + v) = _
  have hlen : (s ++ [x]).length = s.length + 1 := by simp
  rw [hlen, pyIdx_neg_one, List.getD_append_right _ _ _ _ le_rfl,
    List.set_append, if_neg (lt_irrefl _)]
  simp

lemma increment_array_coord (s : List ℤ) (x : ℤ) (d : ℕ) (v : ℤ)
    (hd : d < s.length) :
    increment_array (s ++ [x]) [((d : ℤ), v)] = bump s d v ++ [x] := by
  show (s ++ [x]).set (pyIdx (s ++ [x]).length (d : ℤ))
      ((s ++ [x]).getD (pyIdx (s ++ [x]).length (d : ℤ)) 0 + v) = _
  rw [pyIdx_natCast, getD_append_lt s x d hd, set_append_left s x d _ hd]
  rfl

lemma increment_array_two (s : List ℤ) (x : ℤ) (d : ℕ) (v w : ℤ)
    (hd : d < s.length) :
    increment_array (s ++ [x]) [((d : ℤ), v), (-1, w)] =
      bump s d v ++ [x + w] := by
  rw [increment_array_cons, increment_array_coord s x d v hd,
    increment_array_last]

lemma increment_array_three (s : List ℤ) (x : ℤ) (d e : ℕ) (v u w : ℤ)
    (hd : d < s.length) (he : e < s.length) :
    increment_array (s ++ [x]) [((d : ℤ), v), ((e : ℤ), u), (-1, w)] =
      bump (bump s d v) e u ++ [x + w] := by
  rw [increment_array_cons, increment_array_coord s x d v hd,
    increment_array_cons,
    increment_array_coord _ x e u (by rw [bump_length]; exact he),
    increment_array_last]

lemma spl_eq (b : List ℤ) {d1 d2 : ℕ} (h : d1 < d2) :
    site_plaq_links b (d1 : ℤ) (d2 : ℤ) = some (canon b d1 d2) := by
  rw [site_plaq_links, if_pos (by omega : (d1 : ℤ) < (d2 : ℤ))]
  rw [increment_array_nat, increment_array_nat, canon]

lemma spl_eq_swap (b : List ℤ) {d1 d2 : ℕ} (h : d1 < d2) :
    site_plaq_links b (d2 : ℤ) (d1 : ℤ) = some (canon b d1 d2) := by
  rw [site_plaq_links, if_neg (by omega : ¬ (d2 : ℤ) < (d1 : ℤ)),
    if_pos (by omega : (d1 : ℤ) < (d2 : ℤ))]
  rw [increment_array_nat, increment_array_nat, canon]

lemma bump_bump_cancel (s : List ℤ) (d : ℕ) :
    bump (bump s d (-1)) d 1 = s := by
  by_cases hd : d < s.length
  · have hg : (bump s d (-1)).getD d 0 = s.getD d 0 + (-1) := by
      rw [bump, List.getD_eq_getElem?_getD,
        List.getElem?_eq_getElem (by simpa using hd)]
      simp [List.getElem_set]
    rw [bump, hg, bump, List.set_set]
    have : s.getD d 0 + (-1) + 1 = s.getD d 0 := by ring
    rw [this]
    apply List.ext_getElem
    · simp
    · intro n h1 h2
      rw [List.getElem_set]
      split
      · next he =>
        subst he
        rw [List.getD_eq_getElem?_getD, List.getElem?_eq_getElem h2]
        rfl
      · rfl
  · rw [bump, bump, List.set_eq_of_length_le (by simp; omega),
      List.set_eq_of_length_le (by omega)]

lemma lpl_pos_gt (s : List ℤ) (dl d : ℕ) (hdl : dl < s.length)
    (hd : d < s.length) (h : dl < d) :
    link_plaq_links (s ++ [(dl : ℤ)]) (d : ℤ) 1 = some (canon s dl d) := by
  simp only [link_plaq_links, link_last, if_true]
  rw [if_pos (by omega : (dl : ℤ) < (d : ℤ))]
  rw [increment_array_two s _ dl 1 _ hdl,
    increment_array_coord s _ d 1 hd,
    increment_array_last]
  rw [show (dl : ℤ) + ((d : ℤ) - (dl : ℤ)) = (d : ℤ) from by ring, canon]

lemma lpl_pos_lt (s : List ℤ) (dl d : ℕ) (hdl : dl < s.length)
    (hd : d < s.length) (h : d < dl) :
    link_plaq_links (s ++ [(dl : ℤ)]) (d : ℤ) 1 = some (canon s d dl) := by
  simp only [link_plaq_links, link_last, if_true]
  rw [if_neg (by omega : ¬ (dl : ℤ) < (d : ℤ)),
    if_pos (by omega : (d : ℤ) < (dl : ℤ))]
  rw [increment_array_two s _ dl 1 _ hdl,
    increment_array_coord s _ d 1 hd,
    increment_array_last]
  rw [show (dl : ℤ) + ((d : ℤ) - (dl : ℤ)) = (d : ℤ) from by ring, canon]

lemma lpl_neg_gt (s : List ℤ) (dl d : ℕ) (hdl : dl < s.length)
    (hd : d < s.length) (h : dl < d) :
    link_plaq_links (s ++ [(dl : ℤ)]) (d : ℤ) (-1) =
      some (canon (bump s d (-1)) dl d) := by
  simp only [link_plaq_links, link_last, if_true, if_false]
  rw [if_neg (by decide : ¬ (-1 : ℤ) = 1),
    if_pos (by omega : (dl : ℤ) < (d : ℤ))]
  rw [increment_array_coord s _ d (-1) hd,
    increment_array_three s _ d dl (-1) 1 _ hd hdl,
    increment_array_two s _ d (-1) _ hd]
  rw [show (dl : ℤ) + ((d : ℤ) - (dl : ℤ)) = (d : ℤ) from by ring, canon]
  rw [bump_bump_cancel]

lemma lpl_neg_lt (s : List ℤ) (dl d : ℕ) (hdl : dl < s.length)
    (hd : d < s.length) (h : d < dl) :
    link_plaq_links (s ++ [(dl : ℤ)]) (d : ℤ) (-1) =
      some (canon (bump s d (-1)) d dl) := by
  simp only [link_plaq_links, link_last, if_true, if_false]
  rw [if_neg (by decide : ¬ (-1 : ℤ) = 1),
    if_neg (by omega : ¬ (dl : ℤ) < (d : ℤ)),
    if_pos (by omega : (d : ℤ) < (dl : ℤ))]
  rw [increment_array_two s _ d (-1) _ hd,
    increment_array_three s _ d dl (-1) 1 _ hd hdl,
    increment_array_coord s _ d (-1) hd]
  rw [show (dl : ℤ) + ((d : ℤ) - (dl : ℤ)) = (d : ℤ) from by ring, canon]
  rw [bump_bump_cancel]

/-! Wrapping arithmetic for C3, phrased through the total accessor `getD`. -/

lemma getD_eq_getElem {α : Type} (l : List α) (d : α) {n : ℕ}
    (hn : n < l.length) : l.getD n d = l[n] := by
  rw [List.getD_eq_getElem?_getD, List.getElem?_eq_getElem hn]
  rfl

lemma ext_getD {a b : List ℤ} (hlen : a.length = b.length)
    (h : ∀ k, k < a.length → a.getD k 0 = b.getD k 0) : a = b := by
  apply List.ext_getElem hlen
  intro n h1 h2
  have hn := h n h1
  rwa [getD_eq_getElem a 0 h1, getD_eq_getElem b 0 h2] at hn

lemma set_getD_self (s : List ℤ) (n : ℕ) : s.set n (s.getD n 0) = s := by
  by_cases hn : n < s.length
  · apply List.ext_getElem
    · simp
    · intro k h1 h2
      rw [List.getElem_set]
      split
      · next he => subst he; exact getD_eq_getElem s 0 h2
      · rfl
  · exact List.set_eq_of_length_le (by omega)

lemma bump_noop (s : List ℤ) {d : ℕ} (v : ℤ) (hd : s.length ≤ d) :
    bump s d v = s := by
  rw [bump]
  exact List.set_eq_of_length_le hd

lemma bump_getD_self (s : List ℤ) (d : ℕ) (v : ℤ) (hd : d < s.length) :
    (bump s d v).getD d 0 = s.getD d 0 + v := by
  rw [bump, getD_eq_getElem _ 0 (by simpa using hd)]
  simp [List.getElem_set]

lemma bump_getD_other (s : List ℤ) (d : ℕ) (v : ℤ) {k : ℕ} (hk : k ≠ d) :
    (bump s d v).getD k 0 = s.getD k 0 := by
  by_cases hkl : k < s.length
  · rw [bump, getD_eq_getElem _ 0 (by simpa using hkl),
      getD_eq_getElem _ 0 hkl]
    simp [List.getElem_set, Ne.symm hk]
  · rw [bump, getD_eq_default_of_le _ 0 (by simp; omega),
      getD_eq_default_of_le _ 0 (by omega)]

lemma bump_bump (s : List ℤ) (d : ℕ) (v w : ℤ) :
    bump (bump s d v) d w = bump s d (v + w) := by
  by_cases hd : d < s.length
  · rw [bump, bump_getD_self s d v hd, bump, List.set_set, bump]
    ring_nf
  · rw [bump_noop _ _ (by rw [bump_length]; omega), bump_noop _ _ (by omega),
      bump_noop _ _ (by omega)]

lemma bump_zero (s : List ℤ) (d : ℕ) : bump s d 0 = s := by
  rw [bump, add_zero, set_getD_self]

lemma wrapSite_length (shape : List ℕ) (b : List ℤ) :
    (wrapSite shape b).length = b.length ⊓ shape.length := by
  rw [wrapSite]
  exact List.length_zipWith _ _ _

lemma wrapSite_length_eq {shape : List ℕ} {b : List ℤ}
    (hb : b.length = shape.length) :
    (wrapSite shape b).length = shape.length := by
  rw [wrapSite_length, hb]
  simp

lemma wrapSite_getD {shape : List ℕ} {b : List ℤ} {k : ℕ}
    (hkb : k < b.length) (hks : k < shape.length) :
    (wrapSite shape b).getD k 0 =
      b.getD k 0 % ((shape.getD k 0 : ℕ) : ℤ) := by
  have hkw : k < (wrapSite shape b).length := by
    rw [wrapSite_length]
    exact lt_inf_iff.mpr ⟨hkb, hks⟩
  rw [getD_eq_getElem _ 0 hkw, getD_eq_getElem _ 0 hkb,
    getD_eq_getElem _ 0 hks]
  exact List.getElem_zipWith

lemma wrapSite_inRange_id {shape : List ℕ} {b : List ℤ}
    (hb : inRange shape b) : wrapSite shape b = b := by
  obtain ⟨hlen, hbd⟩ := hb
  apply ext_getD (by rw [wrapSite_length_eq hlen, hlen])
  intro k hk
  have hks : k < shape.length := by
    rw [wrapSite_length_eq hlen] at hk
    exact hk
  rw [wrapSite_getD (by omega) hks]
  obtain ⟨hb0, hb1⟩ := hbd k hks
  exact Int.emod_eq_of_lt hb0 hb1

lemma wrapSite_idem (shape : List ℕ) (b : List ℤ) :
    wrapSite shape (wrapSite shape b) = wrapSite shape b := by
  apply ext_getD
  · rw [wrapSite_length, wrapSite_length, inf_assoc, inf_idem]
  · intro k hk
    rw [wrapSite_length, wrapSite_length, lt_inf_iff, lt_inf_iff] at hk
    obtain ⟨⟨hkb, hks⟩, -⟩ := hk
    rw [wrapSite_getD (by rw [wrapSite_length]; exact lt_inf_iff.mpr ⟨hkb, hks⟩) hks,
      wrapSite_getD hkb hks]
    exact Int.emod_emod_of_dvd _ dvd_rfl

lemma wrapSite_bump_comm {shape : List ℕ} {b : List ℤ}
    (hb : b.length = shape.length) (d : ℕ) (v : ℤ) :
    wrapSite shape (bump (wrapSite shape b) d v) =
      wrapSite shape (bump b d v) := by
  by_cases hd : d < shape.length
  · have h1 : (bump (wrapSite shape b) d v).length = shape.length := by
      rw [bump_length, wrapSite_length_eq hb]
    have h2 : (bump b d v).length = shape.length := by
      rw [bump_length, hb]
    apply ext_getD (by rw [wrapSite_length_eq h1, wrapSite_length_eq h2])
    intro k hk
    have hks : k < shape.length := by
      rw [wrapSite_length_eq h1] at hk
      exact hk
    rw [wrapSite_getD (by omega) hks, wrapSite_getD (by omega) hks]
    by_cases hkd : k = d
    · subst hkd
      rw [bump_getD_self _ _ _ (by rw [wrapSite_length_eq hb]; exact hks),
        bump_getD_self _ _ _ (by omega),
        wrapSite_getD (by omega) hks, Int.emod_add_emod]
    · rw [bump_getD_other _ _ _ hkd, bump_getD_other _ _ _ hkd,
        wrapSite_getD (by omega) hks]
      exact Int.emod_emod_of_dvd _ dvd_rfl
  · rw [bump_noop _ _ (by rw [wrapSite_length_eq hb]; omega),
      bump_noop _ _ (by omega), wrapSite_idem]

lemma wrapSite_mem_inRange {shape : List ℕ} {b : List ℤ}
    (hb : b.length = shape.length) (hpos : ∀ L ∈ shape, 0 < L) :
    inRange shape (wrapSite shape b) := by
  refine ⟨wrapSite_length_eq hb, ?_⟩
  intro k hk
  rw [wrapSite_getD (by omega) hk]
  have hLmem : shape.getD k 0 ∈ shape := getD_mem_of_lt shape 0 hk
  have hLpos : 0 < shape.getD k 0 := hpos _ hLmem
  constructor
  · exact Int.emod_nonneg _ (by exact_mod_cast hLpos.ne')
  · exact Int.emod_lt_of_pos _ (by exact_mod_cast hLpos)

lemma wrap_bump_backward {shape : List ℕ} {s : List ℤ} (d : ℕ)
    (hs : inRange shape s) :
    wrapSite shape (bump (wrapSite shape (bump s d (-1))) d 1) = s := by
  rw [wrapSite_bump_comm (by rw [bump_length, hs.1]) d 1,
    bump_bump, show (-1 : ℤ) + 1 = 0 from by ring, bump_zero,
    wrapSite_inRange_id hs]

lemma wrap_bump_forward {shape : List ℕ} {b s : List ℤ} (d : ℕ)
    (hb : inRange shape b)
    (he : wrapSite shape (bump b d 1) = s) :
    b = wrapSite shape (bump s d (-1)) := by
  have h := congrArg (fun z => wrapSite shape (bump z d (-1))) he
  simp only [] at h
  rw [wrapSite_bump_comm (by rw [bump_length, hb.1]) d (-1),
    bump_bump, show (1 : ℤ) + (-1) = 0 from by ring, bump_zero,
    wrapSite_inRange_id hb] at h
  exact h

/-! Membership infrastructure for C3. -/

lemma mem_multirange : ∀ {shape : List ℕ} {b : List ℤ},
    b ∈ multirange shape ↔ inRange shape b := by
  intro shape
  induction shape with
  | nil =>
    intro b
    constructor
    · intro hb
      simp [multirange] at hb
      subst hb
      exact ⟨rfl, by intro k hk; simp at hk⟩
    · intro hb
      have : b = [] := List.length_eq_zero.mp hb.1
      simp [multirange, this]
  | cons n t ih =>
    intro b
    constructor
    · intro hb
      simp only [multirange, List.mem_flatMap, List.mem_map,
        List.mem_range] at hb
      obtain ⟨i, hi, s', hs', rfl⟩ := hb
      obtain ⟨hlen', hbd'⟩ := ih.mp hs'
      refine ⟨by simp [hlen'], ?_⟩
      intro k hk
      cases k with
      | zero =>
        constructor
        · exact Int.natCast_nonneg i
        · show (i : ℤ) < ((n : ℕ) : ℤ)
          exact_mod_cast hi
      | succ k =>
        have hkt : k < t.length := by
          simp at hk
          omega
        exact hbd' k hkt
    · intro hb
      obtain ⟨hlen, hbd⟩ := hb
      cases b with
      | nil => simp at hlen
      | cons c s' =>
        have h0 := hbd 0 (by simp)
        simp only [List.getD_cons_zero] at h0
        have hc : c = ((c.toNat : ℕ) : ℤ) := by omega
        simp only [multirange, List.mem_flatMap, List.mem_map,
          List.mem_range]
        refine ⟨c.toNat, by omega, s', ?_, by rw [← hc]⟩
        apply ih.mpr
        refine ⟨by simpa using hlen, ?_⟩
        intro k hk
        exact hbd (k + 1) (by simpa using hk)

lemma mem_dimPairs {D : ℕ} {pr : ℕ × ℕ} :
    pr ∈ dimPairs D ↔ pr.1 < pr.2 ∧ pr.2 < D := by
  obtain ⟨a, b⟩ := pr
  simp only [dimPairs, List.mem_flatMap, List.mem_filterMap, List.mem_range]
  constructor
  · rintro ⟨x, hx, y, hy, he⟩
    by_cases hxy : x < y
    · rw [if_pos hxy] at he
      obtain ⟨rfl, rfl⟩ := Prod.mk.injEq .. ▸ Option.some_inj.mp he
      exact ⟨hxy, hy⟩
    · rw [if_neg hxy] at he
      exact absurd he (by simp)
  · rintro ⟨hab, hbD⟩
    exact ⟨a, by omega, b, hbD, by rw [if_pos hab]⟩

lemma append_singleton_inj {a b : List ℤ} {x y : ℤ}
    (hlen : a.length = b.length) : a ++ [x] = b ++ [y] ↔ a = b ∧ x = y := by
  constructor
  · intro he
    obtain ⟨h1, h2⟩ := List.append_inj he hlen
    simp at h2
    exact ⟨h1, h2⟩
  · rintro ⟨rfl, rfl⟩
    rfl

lemma wrapLink_append {shape : List ℕ} {c : List ℤ} (x : ℤ)
    (hc : c.length = shape.length) :
    wrapLink shape (c ++ [x]) = wrapSite shape c ++ [x] := by
  rw [wrapLink, ← hc, List.take_left, List.drop_left]

lemma map_wrap_canon {shape : List ℕ} {b : List ℤ} (d1 d2 : ℕ)
    (hb : b.length = shape.length) :
    (canon b d1 d2).map (wrapLink shape) =
      [wrapSite shape b ++ [(d1 : ℤ)],
       wrapSite shape (bump b d1 1) ++ [(d2 : ℤ)],
       wrapSite shape (bump b d2 1) ++ [(d1 : ℤ)],
       wrapSite shape b ++ [(d2 : ℤ)]] := by
  rw [canon]
  simp only [List.map_cons, List.map_nil]
  rw [wrapLink_append _ hb,
    wrapLink_append _ (by rw [bump_length]; exact hb),
    wrapLink_append _ (by rw [bump_length]; exact hb),
    wrapLink_append _ hb]

lemma map_wrap_canon_wrap {shape : List ℕ} {b : List ℤ} (d1 d2 : ℕ)
    (hb : b.length = shape.length) :
    (canon (wrapSite shape b) d1 d2).map (wrapLink shape) =
      (canon b d1 d2).map (wrapLink shape) := by
  rw [map_wrap_canon d1 d2 (wrapSite_length_eq hb), map_wrap_canon d1 d2 hb]
  rw [wrapSite_idem, wrapSite_bump_comm hb, wrapSite_bump_comm hb]

lemma map_wrap_canon_inj {shape : List ℕ} {b b' : List ℤ}
    {d1 d2 d1' d2' : ℕ}
    (hb : b.length = shape.length) (hb' : b'.length = shape.length)
    (he : (canon b d1 d2).map (wrapLink shape) =
      (canon b' d1' d2').map (wrapLink shape)) :
    wrapSite shape b = wrapSite shape b' ∧ d1 = d1' ∧ d2 = d2' := by
  rw [map_wrap_canon d1 d2 hb, map_wrap_canon d1' d2' hb'] at he
  simp only [List.cons.injEq, and_true] at he
  obtain ⟨he0, he1, he2, he3⟩ := he
  have hl0 : (wrapSite shape b).length = (wrapSite shape b').length := by
    rw [wrapSite_length_eq hb, wrapSite_length_eq hb']
  obtain ⟨hw, hd1⟩ := (append_singleton_inj hl0).mp he0
  obtain ⟨-, hd2⟩ := (append_singleton_inj hl0).mp he3
  exact ⟨hw, by exact_mod_cast hd1, by exact_mod_cast hd2⟩

lemma wrapSite_bump_ne {shape : List ℕ} {s : List ℤ} {d : ℕ}
    (hs : inRange shape s) (hd : d < shape.length)
    (h2 : 2 ≤ shape.getD d 0) :
    wrapSite shape (bump s d (-1)) ≠ s := by
  intro he
  have hgd := congrArg (fun l => l.getD d 0) he
  simp only [] at hgd
  have hdb : d < s.length := by rw [hs.1]; exact hd
  rw [wrapSite_getD (by rw [bump_length]; exact hdb) hd,
    bump_getD_self s d (-1) hdb] at hgd
  obtain ⟨h0, h1⟩ := hs.2 d hd
  have hL2 : (2 : ℤ) ≤ ((shape.getD d 0 : ℕ) : ℤ) := by exact_mod_cast h2
  rcases eq_or_lt_of_le h0 with he0 | hpos
  · rw [← he0] at hgd
    have hm : ((0 : ℤ) + -1) % ((shape.getD d 0 : ℕ) : ℤ) =
        ((shape.getD d 0 : ℕ) : ℤ) - 1 := by
      have hrw : ((0 : ℤ) + -1) =
          (((shape.getD d 0 : ℕ) : ℤ) - 1) +
            ((shape.getD d 0 : ℕ) : ℤ) * (-1) := by ring
      rw [hrw, Int.add_mul_emod_self_left]
      exact Int.emod_eq_of_lt (by omega) (by omega)
    rw [hm] at hgd
    omega
  · have hm : (s.getD d 0 + -1) % ((shape.getD d 0 : ℕ) : ℤ) =
        s.getD d 0 + -1 := Int.emod_eq_of_lt (by omega) (by omega)
    rw [hm] at hgd
    omega

end LGT

namespace LGT

/-! Reduction of the `p_links` slots to canonical plaquettes. -/

lemma p_links_zero (shape : List ℕ) (l : List ℤ) (d : ℕ) :
    p_links shape l d 0 =
      ((link_plaq_links l (d : ℤ) 1).getD []).map (wrapLink shape) := by
  rw [p_links, if_pos rfl]

lemma p_links_one (shape : List ℕ) (l : List ℤ) (d : ℕ) :
    p_links shape l d 1 =
      ((link_plaq_links l (d : ℤ) (-1)).getD []).map (wrapLink shape) := by
  rw [p_links, if_neg (by decide)]

lemma p_links_gt_zero {shape : List ℕ} {s : List ℤ} {dl d : ℕ}
    (hdl : dl < s.length) (hd : d < s.length) (h : dl < d) :
    p_links shape (s ++ [(dl : ℤ)]) d 0 =
      (canon s dl d).map (wrapLink shape) := by
  rw [p_links_zero, lpl_pos_gt s dl d hdl hd h]
  rfl

lemma p_links_gt_one {shape : List ℕ} {s : List ℤ} {dl d : ℕ}
    (hdl : dl < s.length) (hd : d < s.length) (h : dl < d) :
    p_links shape (s ++ [(dl : ℤ)]) d 1 =
      (canon (bump s d (-1)) dl d).map (wrapLink shape) := by
  rw [p_links_one, lpl_neg_gt s dl d hdl hd h]
  rfl

lemma p_links_lt_zero {shape : List ℕ} {s : List ℤ} {dl d : ℕ}
    (hdl : dl < s.length) (hd : d < s.length) (h : d < dl) :
    p_links shape (s ++ [(dl : ℤ)]) d 0 =
      (canon s d dl).map (wrapLink shape) := by
  rw [p_links_zero, lpl_pos_lt s dl d hdl hd h]
  rfl

lemma p_links_lt_one {shape : List ℕ} {s : List ℤ} {dl d : ℕ}
    (hdl : dl < s.length) (hd : d < s.length) (h : d < dl) :
    p_links shape (s ++ [(dl : ℤ)]) d 1 =
      (canon (bump s d (-1)) d dl).map (wrapLink shape) := by
  rw [p_links_one, lpl_neg_lt s dl d hdl hd h]
  rfl

/-- Membership characterization of the plaquette tuples visited by
`link_action`. -/
lemma mem_linkActionPlaqs {shape : List ℕ} {s : List ℤ} {dl : ℕ}
    (hsl : s.length = shape.length) (hdl : dl < shape.length)
    (P : List (List ℤ)) :
    P ∈ linkActionPlaqs shape (s ++ [(dl : ℤ)]) ↔
      ∃ d, d < shape.length ∧ d ≠ dl ∧
        ((dl < d ∧ (P = (canon s dl d).map (wrapLink shape) ∨
            P = (canon (bump s d (-1)) dl d).map (wrapLink shape))) ∨
         (d < dl ∧ (P = (canon s d dl).map (wrapLink shape) ∨
            P = (canon (bump s d (-1)) d dl).map (wrapLink shape)))) := by
  rw [linkActionPlaqs]
  simp only [link_last]
  rw [List.mem_flatMap]
  constructor
  · rintro ⟨d, hdmem, hPmem⟩
    rw [List.mem_filter, List.mem_range] at hdmem
    obtain ⟨hdD, hdne'⟩ := hdmem
    have hdne : d ≠ dl := by
      intro hcontra
      subst hcontra
      simp at hdne'
    have hmem2 : P = p_links shape (s ++ [(dl : ℤ)]) d 0 ∨
        P = p_links shape (s ++ [(dl : ℤ)]) d 1 := by
      simpa using hPmem
    refine ⟨d, hdD, hdne, ?_⟩
    rcases lt_or_gt_of_ne hdne with hlt | hgt
    · right
      refine ⟨hlt, ?_⟩
      rcases hmem2 with rfl | rfl
      · left
        rw [p_links_lt_zero (by omega) (by omega) hlt]
      · right
        rw [p_links_lt_one (by omega) (by omega) hlt]
    · left
      refine ⟨hgt, ?_⟩
      rcases hmem2 with rfl | rfl
      · left
        rw [p_links_gt_zero (by omega) (by omega) hgt]
      · right
        rw [p_links_gt_one (by omega) (by omega) hgt]
  · rintro ⟨d, hdD, hdne, hcase⟩
    refine ⟨d, ?_, ?_⟩
    · rw [List.mem_filter, List.mem_range]
      refine ⟨hdD, ?_⟩
      simp [hdne]
    · rcases hcase with ⟨hgt, hP | hP⟩ | ⟨hlt, hP | hP⟩
      · subst hP
        rw [← p_links_gt_zero (by omega) (by omega) hgt]
        simp
      · subst hP
        rw [← p_links_gt_one (by omega) (by omega) hgt]
        simp
      · subst hP
        rw [← p_links_lt_zero (by omega) (by omega) hlt]
        simp
      · subst hP
        rw [← p_links_lt_one (by omega) (by omega) hlt]
        simp

end LGT

namespace LGT

/-- Membership characterization of the direct plaquette enumeration: the
plaquettes containing the link `s ++ [dl]` are exactly the same canonical
plaquettes that `link_action` visits. -/
lemma mem_directPlaqs {shape : List ℕ} {s : List ℤ} {dl : ℕ}
    (hs : inRange shape s) (hdl : dl < shape.length)
    (hpos : ∀ L ∈ shape, 0 < L) (P : List (List ℤ)) :
    P ∈ directPlaqs shape (s ++ [(dl : ℤ)]) ↔
      ∃ d, d < shape.length ∧ d ≠ dl ∧
        ((dl < d ∧ (P = (canon s dl d).map (wrapLink shape) ∨
            P = (canon (bump s d (-1)) dl d).map (wrapLink shape))) ∨
         (d < dl ∧ (P = (canon s d dl).map (wrapLink shape) ∨
            P = (canon (bump s d (-1)) d dl).map (wrapLink shape)))) := by
  have hsl : s.length = shape.length := hs.1
  rw [directPlaqs, List.mem_flatMap]
  constructor
  · rintro ⟨b, hbmem, hPmem⟩
    have hbIn : inRange shape b := mem_multirange.mp hbmem
    rw [List.mem_filterMap] at hPmem
    obtain ⟨⟨d1, d2⟩, hprmem, hpr⟩ := hPmem
    obtain ⟨h12, h2D⟩ := mem_dimPairs.mp hprmem
    by_cases hin : (s ++ [(dl : ℤ)]) ∈ p_sites shape b (d1 : ℤ) (d2 : ℤ)
    · rw [if_pos hin] at hpr
      have hPe : p_sites shape b (d1 : ℤ) (d2 : ℤ) = P :=
        Option.some_inj.mp hpr
      have hps : p_sites shape b (d1 : ℤ) (d2 : ℤ) =
          (canon b d1 d2).map (wrapLink shape) := by
        rw [p_sites, spl_eq b h12]
        rfl
      rw [hps] at hPe hin
      rw [map_wrap_canon d1 d2 hbIn.1] at hin
      simp only [List.mem_cons, List.not_mem_nil, or_false] at hin
      rcases hin with h | h | h | h
      · obtain ⟨hsb, hdld⟩ := (append_singleton_inj
          (by rw [hsl, wrapSite_length_eq hbIn.1])).mp h
        have hd1 : dl = d1 := by exact_mod_cast hdld
        have hbs : b = s := by rw [← wrapSite_inRange_id hbIn, ← hsb]
        refine ⟨d2, h2D, by omega, Or.inl ⟨by omega, Or.inl ?_⟩⟩
        rw [← hPe, hbs, hd1]
      · obtain ⟨hsb, hdld⟩ := (append_singleton_inj
          (by rw [hsl, wrapSite_length_eq (by rw [bump_length]; exact hbIn.1)])).mp h
        have hd2 : dl = d2 := by exact_mod_cast hdld
        have hbf : b = wrapSite shape (bump s d1 (-1)) :=
          wrap_bump_forward d1 hbIn hsb.symm
        refine ⟨d1, by omega, by omega, Or.inr ⟨by omega, Or.inr ?_⟩⟩
        rw [← hPe, hbf, ← hd2]
        exact map_wrap_canon_wrap d1 dl (by rw [bump_length, hsl])
      · obtain ⟨hsb, hdld⟩ := (append_singleton_inj
          (by rw [hsl, wrapSite_length_eq (by rw [bump_length]; exact hbIn.1)])).mp h
        have hd1 : dl = d1 := by exact_mod_cast hdld
        have hbf : b = wrapSite shape (bump s d2 (-1)) :=
          wrap_bump_forward d2 hbIn hsb.symm
        refine ⟨d2, h2D, by omega, Or.inl ⟨by omega, Or.inr ?_⟩⟩
        rw [← hPe, hbf, ← hd1]
        exact map_wrap_canon_wrap dl d2 (by rw [bump_length, hsl])
      · obtain ⟨hsb, hdld⟩ := (append_singleton_inj
          (by rw [hsl, wrapSite_length_eq hbIn.1])).mp h
        have hd2 : dl = d2 := by exact_mod_cast hdld
        have hbs : b = s := by rw [← wrapSite_inRange_id hbIn, ← hsb]
        refine ⟨d1, by omega, by omega, Or.inr ⟨by omega, Or.inl ?_⟩⟩
        rw [← hPe, hbs, ← hd2]
    · rw [if_neg hin] at hpr
      exact absurd hpr (by simp)
  · rintro ⟨d, hdD, hdne, hcase⟩
    have hcancel : wrapSite shape (bump (bump s d (-1)) d 1) = s := by
      rw [bump_bump, show (-1 : ℤ) + 1 = 0 from by ring, bump_zero,
        wrapSite_inRange_id hs]
    rcases hcase with ⟨hgt, hP | hP⟩ | ⟨hlt, hP | hP⟩
    · refine ⟨s, mem_multirange.mpr hs, ?_⟩
      rw [List.mem_filterMap]
      refine ⟨(dl, d), mem_dimPairs.mpr ⟨hgt, hdD⟩, ?_⟩
      have hps : p_sites shape s (dl : ℤ) (d : ℤ) =
          (canon s dl d).map (wrapLink shape) := by
        rw [p_sites, spl_eq s hgt]
        rfl
      have hin : s ++ [(dl : ℤ)] ∈ p_sites shape s (dl : ℤ) (d : ℤ) := by
        rw [hps, map_wrap_canon dl d hsl, wrapSite_inRange_id hs]
        exact List.mem_cons_self _ _
      rw [if_pos hin, hps, hP]
    · refine ⟨wrapSite shape (bump s d (-1)),
        mem_multirange.mpr (wrapSite_mem_inRange (by rw [bump_length, hsl])
          hpos), ?_⟩
      rw [List.mem_filterMap]
      refine ⟨(dl, d), mem_dimPairs.mpr ⟨hgt, hdD⟩, ?_⟩
      have hps : p_sites shape (wrapSite shape (bump s d (-1))) (dl : ℤ)
          (d : ℤ) = (canon (bump s d (-1)) dl d).map (wrapLink shape) := by
        rw [p_sites, spl_eq _ hgt]
        show (canon (wrapSite shape (bump s d (-1))) dl d).map
          (wrapLink shape) = _
        exact map_wrap_canon_wrap dl d (by rw [bump_length, hsl])
      have hin : s ++ [(dl : ℤ)] ∈ p_sites shape
          (wrapSite shape (bump s d (-1))) (dl : ℤ) (d : ℤ) := by
        rw [hps, map_wrap_canon dl d (by rw [bump_length, hsl])]
        refine List.mem_cons.mpr (Or.inr (List.mem_cons.mpr (Or.inr
          (List.mem_cons.mpr (Or.inl ?_)))))
        rw [hcancel]
      rw [if_pos hin, hps, hP]
    · refine ⟨s, mem_multirange.mpr hs, ?_⟩
      rw [List.mem_filterMap]
      refine ⟨(d, dl), mem_dimPairs.mpr ⟨hlt, hdl⟩, ?_⟩
      have hps : p_sites shape s (d : ℤ) (dl : ℤ) =
          (canon s d dl).map (wrapLink shape) := by
        rw [p_sites, spl_eq s hlt]
        rfl
      have hin : s ++ [(dl : ℤ)] ∈ p_sites shape s (d : ℤ) (dl : ℤ) := by
        rw [hps, map_wrap_canon d dl hsl, wrapSite_inRange_id hs]
        refine List.mem_cons.mpr (Or.inr (List.mem_cons.mpr (Or.inr
          (List.mem_cons.mpr (Or.inr (List.mem_cons.mpr (Or.inl rfl)))))))
      rw [if_pos hin, hps, hP]
    · refine ⟨wrapSite shape (bump s d (-1)),
        mem_multirange.mpr (wrapSite_mem_inRange (by rw [bump_length, hsl])
          hpos), ?_⟩
      rw [List.mem_filterMap]
      refine ⟨(d, dl), mem_dimPairs.mpr ⟨hlt, hdl⟩, ?_⟩
      have hps : p_sites shape (wrapSite shape (bump s d (-1))) (d : ℤ)
          (dl : ℤ) = (canon (bump s d (-1)) d dl).map (wrapLink shape) := by
        rw [p_sites, spl_eq _ hlt]
        show (canon (wrapSite shape (bump s d (-1))) d dl).map
          (wrapLink shape) = _
        exact map_wrap_canon_wrap d dl (by rw [bump_length, hsl])
      have hin : s ++ [(dl : ℤ)] ∈ p_sites shape
          (wrapSite shape (bump s d (-1))) (d : ℤ) (dl : ℤ) := by
        rw [hps, map_wrap_canon d dl (by rw [bump_length, hsl])]
        refine List.mem_cons.mpr (Or.inr (List.mem_cons.mpr (Or.inl ?_)))
        rw [hcancel]
      rw [if_pos hin, hps, hP]

end LGT

namespace LGT

instance (shape : List ℕ) (s : List ℤ) : Decidable (inRange shape s) := by
  unfold inRange
  infer_instance

lemma filter_ne_length {D dl : ℕ} (hdl : dl < D) :
    ((List.range D).filter (fun d : ℕ => ¬((d : ℤ) = (dl : ℤ)))).length =
      D - 1 := by
  have hcong : (List.range D).filter (fun d : ℕ => ¬((d : ℤ) = (dl : ℤ))) =
      (List.range D).filter (fun d : ℕ => ¬(d = dl)) := by
    apply List.filter_congr
    intro x hx
    simp
  rw [hcong]
  have hnd : ((List.range D).filter (fun d : ℕ => ¬(d = dl))).Nodup :=
    (List.nodup_range D).filter _
  rw [← List.toFinset_card_of_nodup hnd]
  have hfs : ((List.range D).filter (fun d : ℕ => ¬(d = dl))).toFinset =
      (Finset.range D).erase dl := by
    ext a
    simp [List.mem_filter, Finset.mem_erase, List.mem_range]
    tauto
  rw [hfs, Finset.card_erase_of_mem (Finset.mem_range.mpr hdl),
    Finset.card_range]

lemma linkActionPlaqs_length {shape : List ℕ} (s : List ℤ) {dl : ℕ}
    (hdl : dl < shape.length) :
    (linkActionPlaqs shape (s ++ [(dl : ℤ)])).length =
      2 * (shape.length - 1) := by
  rw [linkActionPlaqs]
  simp only [link_last]
  rw [List.length_flatMap]
  have hmap : List.map (List.length ∘ fun d =>
      [p_links shape (s ++ [(dl : ℤ)]) d 0,
       p_links shape (s ++ [(dl : ℤ)]) d 1])
      ((List.range shape.length).filter
        (fun d : ℕ => ¬((d : ℤ) = (dl : ℤ)))) =
      List.map (fun _ => 2) ((List.range shape.length).filter
        (fun d : ℕ => ¬((d : ℤ) = (dl : ℤ)))) := by
    apply List.map_congr_left
    intro a ha
    rfl
  rw [hmap]
  have hsum : ∀ (l : List ℕ), (List.map (fun _ => (2 : ℕ)) l).sum =
      2 * l.length := by
    intro l
    induction l with
    | nil => simp
    | cons x t ih =>
      simp only [List.map_cons, List.sum_cons, List.length_cons, ih]
      omega
  rw [hsum, filter_ne_length hdl]

lemma pair_of_mem_p_links {shape : List ℕ} {s : List ℤ} {dl : ℕ}
    (hsl : s.length = shape.length) (hdl : dl < shape.length) {d : ℕ}
    (hd : d < shape.length) (hne : d ≠ dl) {x : List (List ℤ)}
    (hx : x ∈ [p_links shape (s ++ [(dl : ℤ)]) d 0,
      p_links shape (s ++ [(dl : ℤ)]) d 1]) :
    ∃ base : List ℤ, base.length = shape.length ∧
      x = (canon base (min dl d) (max dl d)).map (wrapLink shape) := by
  simp only [List.mem_cons, List.not_mem_nil, or_false] at hx
  rcases lt_or_gt_of_ne hne with hlt | hgt
  · rw [min_eq_right hlt.le, max_eq_left hlt.le]
    rcases hx with rfl | rfl
    · exact ⟨s, hsl, by rw [p_links_lt_zero (by omega) (by omega) hlt]⟩
    · exact ⟨bump s d (-1), by rw [bump_length, hsl],
        by rw [p_links_lt_one (by omega) (by omega) hlt]⟩
  · rw [min_eq_left hgt.le, max_eq_right hgt.le]
    rcases hx with rfl | rfl
    · exact ⟨s, hsl, by rw [p_links_gt_zero (by omega) (by omega) hgt]⟩
    · exact ⟨bump s d (-1), by rw [bump_length, hsl],
        by rw [p_links_gt_one (by omega) (by omega) hgt]⟩

lemma linkActionPlaqs_nodup {shape : List ℕ} {s : List ℤ} {dl : ℕ}
    (hs : inRange shape s) (hdl : dl < shape.length)
    (hext : ∀ L ∈ shape, 2 ≤ L) :
    (linkActionPlaqs shape (s ++ [(dl : ℤ)])).Nodup := by
  have hsl := hs.1
  rw [linkActionPlaqs]
  simp only [link_last]
  rw [List.nodup_flatMap]
  constructor
  · intro d hdmem
    rw [List.mem_filter, List.mem_range] at hdmem
    obtain ⟨hdD, hdne'⟩ := hdmem
    have hdne : d ≠ dl := by
      intro hc
      subst hc
      simp at hdne'
    have h2L : 2 ≤ shape.getD d 0 := hext _ (getD_mem_of_lt shape 0 hdD)
    refine List.Nodup.cons ?_ (List.nodup_singleton _)
    simp only [List.mem_singleton]
    intro heq
    rcases lt_or_gt_of_ne hdne with hlt | hgt
    · rw [p_links_lt_zero (by omega) (by omega) hlt,
        p_links_lt_one (by omega) (by omega) hlt] at heq
      obtain ⟨hw, -, -⟩ :=
        map_wrap_canon_inj hsl (by rw [bump_length, hsl]) heq
      rw [wrapSite_inRange_id hs] at hw
      exact wrapSite_bump_ne hs hdD h2L hw.symm
    · rw [p_links_gt_zero (by omega) (by omega) hgt,
        p_links_gt_one (by omega) (by omega) hgt] at heq
      obtain ⟨hw, -, -⟩ :=
        map_wrap_canon_inj hsl (by rw [bump_length, hsl]) heq
      rw [wrapSite_inRange_id hs] at hw
      exact wrapSite_bump_ne hs hdD h2L hw.symm
  · apply List.Pairwise.imp_of_mem ?_
      ((List.nodup_range shape.length).filter _)
    intro a b hamem hbmem hab
    rw [List.mem_filter, List.mem_range] at hamem hbmem
    obtain ⟨haD, hane'⟩ := hamem
    obtain ⟨hbD, hbne'⟩ := hbmem
    have hane : a ≠ dl := by
      intro hc
      subst hc
      simp at hane'
    have hbne : b ≠ dl := by
      intro hc
      subst hc
      simp at hbne'
    intro x hxa hxb
    obtain ⟨ba, hba, hxa'⟩ := pair_of_mem_p_links hsl hdl haD hane hxa
    obtain ⟨bb, hbb, hxb'⟩ := pair_of_mem_p_links hsl hdl hbD hbne hxb
    rw [hxa'] at hxb'
    obtain ⟨-, hmin, hmax⟩ := map_wrap_canon_inj hba hbb hxb'
    exact hab (by omega)

lemma link_action_none_sum (shape : List ℕ) (tbl : List (List ℕ))
    (act : ℤ → ℚ) (links : List ℤ → ℤ) (l : List ℤ) :
    (link_action shape tbl act links l none).1 =
      ((linkActionPlaqs shape l).map (fun P =>
        act (plaqProd tbl (links (P.getD 0 [])) (links (P.getD 1 []))
          (links (P.getD 2 [])) (links (P.getD 3 []))))).sum := by
  rw [linkActionPlaqs, List.map_flatMap, List.flatMap_def, List.sum_flatten,
    List.map_map]
  rfl

/-- C3 (amended): on a lattice with every extent at least 2, for every
in-range link `s ++ [dl]`, `link_action` sums exactly `2*(D-1)` plaquette
contributions (one per direction other than the link's, times two signs),
the plaquettes it visits are pairwise distinct, and their set equals the
set obtained by directly enumerating all (site, d1, d2) plaquettes whose
four wrapped links contain the link; moreover `link_action`'s value is
literally the sum of the action over the visited plaquettes. -/
theorem link_action_coverage (shape : List ℕ) (s : List ℤ) (dl : ℕ)
    (tbl : List (List ℕ)) (act : ℤ → ℚ) (links : List ℤ → ℤ)
    (_hD : 2 ≤ shape.length) (hext : ∀ L ∈ shape, 2 ≤ L)
    (hs : inRange shape s) (hdl : dl < shape.length) :
    (linkActionPlaqs shape (s ++ [(dl : ℤ)])).length =
      2 * (shape.length - 1) ∧
    (linkActionPlaqs shape (s ++ [(dl : ℤ)])).Nodup ∧
    (linkActionPlaqs shape (s ++ [(dl : ℤ)])).toFinset =
      (directPlaqs shape (s ++ [(dl : ℤ)])).toFinset ∧
    (link_action shape tbl act links (s ++ [(dl : ℤ)]) none).1 =
      ((linkActionPlaqs shape (s ++ [(dl : ℤ)])).map (fun P =>
        act (plaqProd tbl (links (P.getD 0 [])) (links (P.getD 1 []))
          (links (P.getD 2 [])) (links (P.getD 3 []))))).sum := by
  have hpos : ∀ L ∈ shape, 0 < L := fun L hL => by
    have := hext L hL
    omega
  refine ⟨linkActionPlaqs_length s hdl, linkActionPlaqs_nodup hs hdl hext,
    ?_, link_action_none_sum shape tbl act links _⟩
  ext P
  rw [List.mem_toFinset, List.mem_toFinset, mem_linkActionPlaqs hs.1 hdl P,
    mem_directPlaqs hs hdl hpos P]

/-- C3 (counterexample): on the degenerate lattice of shape `[2, 1]` the two
signed plaquettes perpendicular to the link `(0,0; dir 0)` along the
extent-1 axis wrap onto each other, so `link_action` still sums `2*(D-1)`
contributions and the visited set still equals the direct enumeration, but
one plaquette is counted twice — the visited list is not duplicate-free as
the claim demands. -/
theorem link_action_coverage_cex :
    (linkActionPlaqs [2, 1] [0, 0, 0]).length = 2 * (2 - 1) ∧
    (linkActionPlaqs [2, 1] [0, 0, 0]).toFinset =
      (directPlaqs [2, 1] [0, 0, 0]).toFinset ∧
    ¬ (linkActionPlaqs [2, 1] [0, 0, 0]).Nodup := by decide

/-- C3 (witness): the amended coverage theorem evaluated on the 2×2 lattice
at the link `(0,0; dir 0)` with the `Z_2` group, delta action, and the
identity configuration. -/
theorem link_action_coverage_witness :
    (linkActionPlaqs [2, 2] ([0, 0] ++ [(0 : ℤ)])).length = 2 * (2 - 1) ∧
    (linkActionPlaqs [2, 2] ([0, 0] ++ [(0 : ℤ)])).Nodup ∧
    (linkActionPlaqs [2, 2] ([0, 0] ++ [(0 : ℤ)])).toFinset =
      (directPlaqs [2, 2] ([0, 0] ++ [(0 : ℤ)])).toFinset ∧
    (link_action [2, 2] (ZNtable 2) (delta_action (ZNtable 2))
      (fun _ => 0) ([0, 0] ++ [(0 : ℤ)]) none).1 =
      ((linkActionPlaqs [2, 2] ([0, 0] ++ [(0 : ℤ)])).map (fun P =>
        delta_action (ZNtable 2) (plaqProd (ZNtable 2)
          ((fun _ => (0 : ℤ)) (P.getD 0 [])) ((fun _ => (0 : ℤ)) (P.getD 1 []))
          ((fun _ => (0 : ℤ)) (P.getD 2 []))
          ((fun _ => (0 : ℤ)) (P.getD 3 []))))).sum :=
  link_action_coverage [2, 2] [0, 0] 0 (ZNtable 2) (delta_action (ZNtable 2))
    (fun _ => 0) (by decide) (by decide) (by decide) (by decide)

end LGT
